import Mathlib

/-!
Shallow embedding of the phone-recommender application (src/app.py) and
verification of its specified properties.

The catalog (pandas DataFrame `phones_df`) is modelled as a `List Phone` whose
list position is the 0-based row position; the similarity matrix `cosine_sim`
is a `List (List ℚ)` of rows (similarity scores are opaque ordinal values, so
rationals stand in for floats: only their relative order is ever used).
A pandas DataFrame result is modelled as a `Frame` carrying its column list and
its rows; `pd.DataFrame()` is the frame with no columns and no rows.
Python exceptions (the IndexError that `phones_df.iloc[ids]` raises on an
out-of-range positional id) are modelled by `Option`: `none` is a raised error.
-/

/-- One row of `phones_df`: the eight attribute columns that the application
reads (Brand, Model, Price, RAM, Storage, Screen Size, Battery Capacity,
main_camera_mp). -/
structure Phone where
  brand : String
  model : String
  price : ℚ
  ram : Int
  storage : Int
  screen : ℚ
  battery : Int
  cameraMp : ℚ
deriving DecidableEq, Repr

instance : Inhabited Phone := ⟨⟨"", "", 0, 0, 0, 0, 0, 0⟩⟩

/-- Python str.strip(): remove leading and trailing whitespace
(executable model of the pandas .str.strip() on src/app.py line 14). -/
def stripWS (s : String) : String :=
  ((s.toList.dropWhile Char.isWhitespace).reverse.dropWhile
    Char.isWhitespace).reverse.asString

/-- src/app.py lines 13-15: the derived display label,
Brand stripped ++ " - " ++ Model stripped. -/
def displayName (p : Phone) : String :=
  stripWS p.brand ++ " - " ++ stripWS p.model

/-- src/app.py lines 18 and 26-30: the mapping display_name -> original row
index. With duplicate labels, `indices.loc[label]` yields every match in row
order and the code takes `.iloc[0]`, so resolution returns the position of the
first matching row in catalog iteration order, `none` when no row matches. -/
def resolveLabel (phones : List Phone) (label : String) : Option Nat :=
  match phones with
  | [] => none
  | p :: ps =>
    if displayName p = label then some 0
    else (resolveLabel ps label).map (fun i => i + 1)

/-- A pandas DataFrame crossing the boundary of `get_recs`: its column list
and its rows. -/
structure Frame where
  cols : List String
  rows : List Phone
deriving DecidableEq, Repr

/-- `pd.DataFrame()`: no columns, no rows (src/app.py lines 24 and 34). -/
def emptyFrame : Frame := ⟨[], []⟩

/-- src/app.py line 45: the columns selected into the result frame. -/
def theCols : List String :=
  ["Brand", "Model", "Price", "RAM", "Storage", "Screen Size",
   "Battery Capacity", "main_camera_mp"]

/-- Stable insertion step for a sort descending by score (second component):
the new element goes before the first element whose score is not larger.
Elements coming earlier in the original list are inserted first, so equal
scores keep their original relative order, exactly the semantics of Python
list.sort with a key and reverse=True (src/app.py line 41). -/
def insertDesc (x : Nat × ℚ) : List (Nat × ℚ) → List (Nat × ℚ)
  | [] => [x]
  | y :: ys => if x.2 < y.2 then y :: insertDesc x ys else x :: y :: ys

/-- Stable sort descending by score (src/app.py line 41:
`sim_scores.sort(key=lambda t: t[1], reverse=True)`). -/
def sortDesc : List (Nat × ℚ) → List (Nat × ℚ)
  | [] => []
  | x :: xs => insertDesc x (sortDesc xs)

/-- src/app.py lines 40-42: enumerate the row, sort by score descending,
drop the query position itself, truncate to n. -/
def rankedPairs (row : List ℚ) (idx n : Nat) : List (Nat × ℚ) :=
  ((sortDesc row.enum).filter (fun t => t.1 != idx)).take n

/-- The positional ids that `get_recs` feeds into `phones_df.iloc`
(src/app.py line 43), or [] on either early return. -/
def recIds (phones : List Phone) (sim : List (List ℚ)) (label : String)
    (n : Nat) : List Nat :=
  match resolveLabel phones label with
  | none => []
  | some idx =>
    if (idx : Int) < 0 ∨ (sim.length : Int) ≤ (idx : Int) then []
    else (rankedPairs (sim.getD idx []) idx n).map Prod.fst

/-- `phones_df.iloc[ids]` (src/app.py line 46): positional row selection that
raises IndexError (modelled as `none`) when any id is out of range. -/
def ilocRows (phones : List Phone) : List Nat → Option (List Phone)
  | [] => some []
  | i :: is =>
    match phones[i]?, ilocRows phones is with
    | some p, some ps => some (p :: ps)
    | _, _ => none

/-- src/app.py lines 20-46, `get_recs`. Returns `some frame` on a normal
return (the empty `pd.DataFrame()` when the label does not resolve or the
resolved index fails the bounds check, else the selected rows under the eight
columns), and `none` when `.iloc` raises. Being a Lean function, it is
deterministic by construction: the same inputs give the same output. -/
def get_recs (phones : List Phone) (sim : List (List ℚ)) (label : String)
    (n : Nat) : Option Frame :=
  match resolveLabel phones label with
  | none => some emptyFrame
  | some idx =>
    if (idx : Int) < 0 ∨ (sim.length : Int) ≤ (idx : Int) then some emptyFrame
    else
      match ilocRows phones ((rankedPairs (sim.getD idx []) idx n).map Prod.fst) with
      | none => none
      | some rows => some ⟨theCols, rows⟩

/-- src/app.py lines 9-18, module load: the artifacts are loaded, the display
label is attached to every row, and the label-to-index mapping is built.
The function is total: no consistency check between the catalog and the
matrix is performed at load time. -/
def loadArtifacts (phones : List Phone) (sim : List (List ℚ)) :
    List (Phone × String) × List (List ℚ) :=
  (phones.map (fun p => (p, displayName p)), sim)

/-- The filter predicate values read from the sidebar widgets
(src/app.py lines 147-166): a brand membership list and six numeric
inclusive ranges. -/
structure FilterPreds where
  brands : List String
  price : ℚ × ℚ
  ram : Int × Int
  storage : Int × Int
  screen : ℚ × ℚ
  battery : Int × Int
  cameraMp : ℚ × ℚ
deriving DecidableEq, Repr

/-- pandas `Series.between(lo, hi)` with the default inclusive="both":
lo ≤ v and v ≤ hi (src/app.py lines 174-179). -/
def between {α : Type} [LinearOrder α] (lo hi v : α) : Bool :=
  decide (lo ≤ v) && decide (v ≤ hi)

/-- The boolean mask of src/app.py lines 172-179 evaluated at one row:
Brand membership AND the six inclusive range conditions. -/
def rowPasses (f : FilterPreds) (p : Phone) : Bool :=
  f.brands.contains p.brand
    && between f.price.1 f.price.2 p.price
    && between f.ram.1 f.ram.2 p.ram
    && between f.storage.1 f.storage.2 p.storage
    && between f.screen.1 f.screen.2 p.screen
    && between f.battery.1 f.battery.2 p.battery
    && between f.cameraMp.1 f.cameraMp.2 p.cameraMp

/-- src/app.py lines 172-180: boolean-mask row selection `recs[mask]`,
which keeps exactly the rows whose mask entry is True, in row order. -/
def filterRecs (f : FilterPreds) (recs : List Phone) : List Phone :=
  recs.filter (rowPasses f)

/-- src/app.py lines 72-79, `safe_slider`: when lo == hi the slider widget is
skipped and (lo, hi) is returned directly; otherwise the pair chosen through
the widget (here a parameter) is returned. -/
def safe_slider {α : Type} [DecidableEq α] (lo hi : α) (choice : α × α) :
    α × α :=
  if lo = hi then (lo, hi) else choice

/-! ### Helper lemmas about the stable descending sort and row enumeration -/

/-- The strict ranking order that the sorted candidate list realises:
higher score first, ties by lower original position first. -/
def lexGT (a b : Nat × ℚ) : Prop :=
  b.2 < a.2 ∨ (a.2 = b.2 ∧ a.1 < b.1)

theorem insertDesc_perm (x : Nat × ℚ) (l : List (Nat × ℚ)) :
    (insertDesc x l).Perm (x :: l) := by
  induction l with
  | nil => simp [insertDesc]
  | cons y ys ih =>
    simp only [insertDesc]
    split
    · exact (ih.cons y).trans (List.Perm.swap x y ys)
    · exact List.Perm.refl _

theorem sortDesc_perm (l : List (Nat × ℚ)) : (sortDesc l).Perm l := by
  induction l with
  | nil => exact List.Perm.refl _
  | cons x xs ih => exact (insertDesc_perm x (sortDesc xs)).trans (ih.cons x)

theorem mem_sortDesc {l : List (Nat × ℚ)} {a : Nat × ℚ} :
    a ∈ sortDesc l ↔ a ∈ l :=
  (sortDesc_perm l).mem_iff

theorem pairwise_insertDesc (x : Nat × ℚ) {l : List (Nat × ℚ)}
    (hl : l.Pairwise lexGT) (hx : ∀ y ∈ l, x.2 = y.2 → x.1 < y.1) :
    (insertDesc x l).Pairwise lexGT := by
  induction l with
  | nil => simp [insertDesc, List.pairwise_singleton]
  | cons y ys ih =>
    rcases List.pairwise_cons.mp hl with ⟨hy, hys⟩
    simp only [insertDesc]
    split
    · rename_i hlt
      refine List.pairwise_cons.mpr ⟨?_, ?_⟩
      · intro z hz
        rcases List.mem_cons.mp ((insertDesc_perm x ys).mem_iff.mp hz) with hz | hz
        · subst hz; exact Or.inl hlt
        · exact hy z hz
      · exact ih hys (fun z hz h => hx z (List.mem_cons_of_mem y hz) h)
    · rename_i hge
      push_neg at hge
      refine List.pairwise_cons.mpr ⟨?_, hl⟩
      intro z hz
      rcases List.mem_cons.mp hz with rfl | hz
      · rcases lt_or_eq_of_le hge with h | h
        · exact Or.inl h
        · exact Or.inr ⟨h.symm, hx z (List.mem_cons_self z ys) h.symm⟩
      · rcases hy z hz with h | ⟨he, _⟩
        · exact Or.inl (lt_of_lt_of_le h hge)
        · rcases lt_or_eq_of_le hge with h2 | h2
          · exact Or.inl (he ▸ h2)
          · exact Or.inr ⟨(h2.symm.trans he), hx z (List.mem_cons_of_mem y hz) (h2.symm.trans he)⟩

theorem pairwise_sortDesc {l : List (Nat × ℚ)}
    (h : l.Pairwise (fun a b => a.2 = b.2 → a.1 < b.1)) :
    (sortDesc l).Pairwise lexGT := by
  induction l with
  | nil => exact List.Pairwise.nil
  | cons x xs ih =>
    rcases List.pairwise_cons.mp h with ⟨hx, hxs⟩
    exact pairwise_insertDesc x (ih hxs)
      (fun y hy => hx y (mem_sortDesc.mp hy))

theorem fst_le_of_mem_enumFrom {l : List ℚ} {m : Nat} {p : Nat × ℚ}
    (h : p ∈ l.enumFrom m) : m ≤ p.1 := by
  induction l generalizing m with
  | nil => simp [List.enumFrom] at h
  | cons x xs ih =>
    rcases List.mem_cons.mp h with rfl | h
    · exact Nat.le_refl m
    · exact Nat.le_of_succ_le (ih h)

theorem pairwise_fst_enumFrom (l : List ℚ) (m : Nat) :
    (l.enumFrom m).Pairwise (fun a b => a.1 < b.1) := by
  induction l generalizing m with
  | nil => exact List.Pairwise.nil
  | cons x xs ih =>
    refine List.pairwise_cons.mpr ⟨?_, ih (m + 1)⟩
    intro z hz
    exact Nat.lt_of_succ_le (fst_le_of_mem_enumFrom hz)

theorem pairwise_fst_enum (l : List ℚ) :
    (l.enum).Pairwise (fun a b => a.1 < b.1) :=
  pairwise_fst_enumFrom l 0

theorem mem_enum_score {row : List ℚ} {p : Nat × ℚ} (h : p ∈ row.enum) :
    p.1 < row.length ∧ row.getD p.1 0 = p.2 := by
  obtain ⟨i, x⟩ := p
  have h2 := List.mk_mem_enum_iff_getElem?.mp h
  rcases List.getElem?_eq_some.mp h2 with ⟨hlt, hget⟩
  exact ⟨hlt, by rw [List.getD_eq_getElem row 0 hlt]; exact hget⟩

theorem sortDesc_enum_pairwise (row : List ℚ) :
    (sortDesc row.enum).Pairwise lexGT := by
  apply pairwise_sortDesc
  refine (pairwise_fst_enum row).imp ?_
  intro a b h _
  exact h

theorem rankedPairs_sublist (row : List ℚ) (idx n : Nat) :
    (rankedPairs row idx n).Sublist ((sortDesc row.enum).filter (fun t => t.1 != idx)) :=
  List.take_sublist n _

theorem mem_of_rankedPairs {row : List ℚ} {idx n : Nat} {p : Nat × ℚ}
    (h : p ∈ rankedPairs row idx n) : p ∈ row.enum ∧ p.1 ≠ idx := by
  have h2 := (rankedPairs_sublist row idx n).mem h
  rcases List.mem_filter.mp h2 with ⟨h3, h4⟩
  exact ⟨mem_sortDesc.mp h3, by simpa using h4⟩

theorem rankedPairs_pairwise (row : List ℚ) (idx n : Nat) :
    (rankedPairs row idx n).Pairwise lexGT :=
  List.Pairwise.sublist
    ((rankedPairs_sublist row idx n).trans (List.filter_sublist _))
    (sortDesc_enum_pairwise row)

/-! ### Helper lemmas about recIds, ilocRows and get_recs -/

theorem recIds_resolved {phones : List Phone} {sim : List (List ℚ)}
    {label : String} {idx : Nat} (n : Nat)
    (h1 : resolveLabel phones label = some idx) (h2 : idx < sim.length) :
    recIds phones sim label n
      = (rankedPairs (sim.getD idx []) idx n).map Prod.fst := by
  have hcond : ¬((idx : Int) < 0 ∨ (sim.length : Int) ≤ (idx : Int)) := by omega
  simp only [recIds, h1, if_neg hcond]

theorem get_recs_resolved {phones : List Phone} {sim : List (List ℚ)}
    {label : String} {idx : Nat} (n : Nat)
    (h1 : resolveLabel phones label = some idx) (h2 : idx < sim.length) :
    get_recs phones sim label n
      = match ilocRows phones ((rankedPairs (sim.getD idx []) idx n).map Prod.fst) with
        | none => none
        | some rows => some ⟨theCols, rows⟩ := by
  have hcond : ¬((idx : Int) < 0 ∨ (sim.length : Int) ≤ (idx : Int)) := by omega
  simp only [get_recs, h1, if_neg hcond]

theorem rankedPairs_map_fst_nodup (row : List ℚ) (idx n : Nat) :
    ((rankedPairs row idx n).map Prod.fst).Nodup := by
  have h1 : ((sortDesc row.enum).map Prod.fst).Nodup :=
    (((sortDesc_perm row.enum).map Prod.fst).nodup_iff).mpr
      (List.nodup_enum_map_fst row)
  have h2 : (rankedPairs row idx n).Sublist (sortDesc row.enum) :=
    (rankedPairs_sublist row idx n).trans (List.filter_sublist _)
  exact List.Nodup.sublist (h2.map Prod.fst) h1

theorem ilocRows_total {phones : List Phone} {ids : List Nat}
    (h : ∀ i ∈ ids, i < phones.length) :
    ∃ rows, ilocRows phones ids = some rows := by
  induction ids with
  | nil => exact ⟨[], rfl⟩
  | cons i is ih =>
    obtain ⟨rows, hr⟩ := ih (fun j hj => h j (List.mem_cons_of_mem i hj))
    obtain ⟨p, hp⟩ : ∃ p, phones[i]? = some p :=
      ⟨_, List.getElem?_eq_getElem (h i (List.mem_cons_self i is))⟩
    exact ⟨p :: rows, by simp only [ilocRows, hp, hr]⟩

theorem get_recs_rows_link {phones : List Phone} {sim : List (List ℚ)}
    {label : String} {n : Nat} {f : Frame}
    (h : get_recs phones sim label n = some f) :
    ilocRows phones (recIds phones sim label n) = some f.rows := by
  cases hres : resolveLabel phones label with
  | none =>
    simp only [get_recs, hres] at h
    have hf : f = emptyFrame := by exact (Option.some_inj.mp h).symm
    subst hf
    simp only [recIds, hres]
    rfl
  | some idx =>
    by_cases hc : ((idx : Int) < 0 ∨ (sim.length : Int) ≤ (idx : Int))
    · simp only [get_recs, hres, if_pos hc] at h
      have hf : f = emptyFrame := by exact (Option.some_inj.mp h).symm
      subst hf
      simp only [recIds, hres, if_pos hc]
      rfl
    · simp only [get_recs, hres, if_neg hc] at h
      simp only [recIds, hres, if_neg hc]
      cases hil : ilocRows phones ((rankedPairs (sim.getD idx []) idx n).map Prod.fst) with
      | none => rw [hil] at h; cases h
      | some rows =>
        rw [hil] at h
        have hf : f = ⟨theCols, rows⟩ := (Option.some_inj.mp h).symm
        subst hf
        rfl

theorem countP_bne_of_nodup {l : List Nat} {a : Nat} (hn : l.Nodup) (ha : a ∈ l) :
    List.countP (fun i => i != a) l = l.length - 1 := by
  induction l with
  | nil => cases ha
  | cons x xs ih =>
    rcases List.pairwise_cons.mp hn with ⟨hx, hxs⟩
    rcases List.mem_cons.mp ha with rfl | ha2
    · have hall : List.countP (fun i => i != a) xs = xs.length := by
        rw [List.countP_eq_length]
        intro b hb
        simp only [bne_iff_ne, ne_eq, decide_eq_true_eq]
        exact fun he => hx b hb he.symm
      simp [List.countP_cons, hall]
    · have htrue : (x != a) = true := by
        simp only [bne_iff_ne, ne_eq, decide_eq_true_eq]
        exact hx a ha2
      have hpos := List.length_pos_of_mem ha2
      rw [List.countP_cons, ih hxs ha2, htrue]
      simp only [List.length_cons, if_true]
      omega

theorem length_filter_ne_enum (row : List ℚ) (idx : Nat) (h : idx < row.length) :
    ((row.enum).filter (fun t => t.1 != idx)).length = row.length - 1 := by
  calc ((row.enum).filter (fun t => t.1 != idx)).length
      = List.countP (fun t => t.1 != idx) row.enum :=
        (List.countP_eq_length_filter _ _).symm
    _ = List.countP (fun i => i != idx) ((row.enum).map Prod.fst) := by
        rw [List.countP_map]
        rfl
    _ = ((row.enum).map Prod.fst).length - 1 :=
        countP_bne_of_nodup (List.nodup_enum_map_fst row)
          (by rw [List.enum_map_fst]; exact List.mem_range.mpr h)
    _ = row.length - 1 := by rw [List.length_map, List.enum_length]

/-! ### Claim theorems -/

/-- C4: for every resolvable label (resolving to an in-bounds position idx)
and every n, the id sequence underlying the output of get_recs is strictly
ordered by similarity score descending, ties broken by ascending catalog
position: the order is a strict function of the scores, and get_recs,
being a function, is deterministic. -/
theorem recommend_order_strict (phones : List Phone) (sim : List (List ℚ))
    (label : String) (n idx : Nat)
    (h1 : resolveLabel phones label = some idx) (h2 : idx < sim.length) :
    (recIds phones sim label n).Pairwise (fun i j =>
      (sim.getD idx []).getD j 0 < (sim.getD idx []).getD i 0 ∨
        ((sim.getD idx []).getD i 0 = (sim.getD idx []).getD j 0 ∧ i < j)) := by
  rw [recIds_resolved n h1 h2, List.pairwise_map]
  refine List.Pairwise.imp_of_mem ?_ (rankedPairs_pairwise (sim.getD idx []) idx n)
  intro a b ha hb hab
  obtain ⟨ha1, ha2⟩ := mem_enum_score (mem_of_rankedPairs ha).1
  obtain ⟨hb1, hb2⟩ := mem_enum_score (mem_of_rankedPairs hb).1
  rcases hab with hlt | ⟨he, hfst⟩
  · exact Or.inl (by rw [ha2, hb2]; exact hlt)
  · exact Or.inr ⟨by rw [ha2, hb2]; exact he, hfst⟩

/-- C10: the catalog positions selected by get_recs are pairwise distinct
(each position occurs at most once in one result), and whenever get_recs
returns a frame, its rows are exactly the rows selected by those positions. -/
theorem recommend_positions_nodup (phones : List Phone) (sim : List (List ℚ))
    (label : String) (n : Nat) :
    (recIds phones sim label n).Nodup ∧
    ∀ f, get_recs phones sim label n = some f →
      ilocRows phones (recIds phones sim label n) = some f.rows := by
  constructor
  · cases hres : resolveLabel phones label with
    | none => simp [recIds, hres]
    | some idx =>
      by_cases hc : ((idx : Int) < 0 ∨ (sim.length : Int) ≤ (idx : Int))
      · simp only [recIds, hres, if_pos hc]
        exact List.nodup_nil
      · simp only [recIds, hres, if_neg hc]
        exact rankedPairs_map_fst_nodup _ idx n
  · intro f hf
    exact get_recs_rows_link hf

/-- C6: the resolved query position idx itself never appears among the
selected positions, whatever its score; and on a single-entity catalog with
its 1-by-1 similarity matrix, any returned frame has no rows. -/
theorem recommend_excludes_self (phones : List Phone) (sim : List (List ℚ))
    (label : String) (n idx : Nat)
    (h : resolveLabel phones label = some idx) :
    idx ∉ recIds phones sim label n ∧
    ∀ (p : Phone) (s : ℚ) (lbl : String) (m : Nat) (f : Frame),
      get_recs [p] [[s]] lbl m = some f → f.rows = [] := by
  constructor
  · by_cases hc : ((idx : Int) < 0 ∨ (sim.length : Int) ≤ (idx : Int))
    · simp only [recIds, h, if_pos hc]
      exact List.not_mem_nil idx
    · simp only [recIds, h, if_neg hc]
      intro hmem
      rcases List.mem_map.mp hmem with ⟨q, hq, hq1⟩
      exact (mem_of_rankedPairs hq).2 hq1
  · intro p s lbl m f hf
    by_cases hd : displayName p = lbl
    · have hres : resolveLabel [p] lbl = some 0 := by
        simp [resolveLabel, hd]
      rw [get_recs_resolved m hres (by simp)] at hf
      have hgd : (([[s]] : List (List ℚ)).getD 0 []) = [s] := rfl
      have henum : ([s] : List ℚ).enum = [(0, s)] := rfl
      have hrp : rankedPairs [s] 0 m = [] := by
        simp [rankedPairs, henum, sortDesc, insertDesc]
      rw [hgd, hrp] at hf
      have hf2 : (⟨theCols, []⟩ : Frame) = f := Option.some_inj.mp hf
      rw [← hf2]
    · have hres : resolveLabel [p] lbl = none := by
        simp [resolveLabel, hd]
      simp only [get_recs, hres] at hf
      have hf2 : emptyFrame = f := Option.some_inj.mp hf
      rw [← hf2]
      rfl

/-- C5: when the label does not resolve, or resolves to a position outside
the bounds of the similarity matrix, get_recs returns the empty frame
normally (no error), for any similarity matrix: the matrix row is never
read in these cases. Resolved positions are naturals, so the negative
branch of the bounds check in the source is vacuous. -/
theorem recommend_unknown_or_oob_empty (phones : List Phone)
    (sim : List (List ℚ)) (label : String) (n : Nat) :
    (resolveLabel phones label = none →
      get_recs phones sim label n = some emptyFrame) ∧
    ∀ idx, resolveLabel phones label = some idx → sim.length ≤ idx →
      get_recs phones sim label n = some emptyFrame := by
  constructor
  · intro h
    simp [get_recs, h]
  · intro idx h hle
    have hc : ((idx : Int) < 0 ∨ (sim.length : Int) ≤ (idx : Int)) := by omega
    simp only [get_recs, h, if_pos hc]

/-- C2: every normal return of get_recs is distinguishable by its column
list: the empty no-column frame is returned exactly when the label failed to
resolve to an in-bounds position, and a frame carrying the eight selected
columns is returned exactly when it did resolve, even if no candidate
survived, so a caller can tell the two outcomes apart. -/
theorem recommend_outcomes_distinguishable (phones : List Phone)
    (sim : List (List ℚ)) (label : String) (n : Nat) (f : Frame)
    (h : get_recs phones sim label n = some f) :
    emptyFrame.cols ≠ theCols ∧
    (f.cols = theCols ↔
      ∃ idx, resolveLabel phones label = some idx ∧ idx < sim.length) := by
  refine ⟨by simp [emptyFrame, theCols], ?_⟩
  cases hres : resolveLabel phones label with
  | none =>
    simp only [get_recs, hres] at h
    have hf : f = emptyFrame := (Option.some_inj.mp h).symm
    subst hf
    constructor
    · intro hcols
      exact absurd hcols (by simp [emptyFrame, theCols])
    · rintro ⟨idx, hidx, _⟩
      cases hidx
  | some idx =>
    by_cases hc : ((idx : Int) < 0 ∨ (sim.length : Int) ≤ (idx : Int))
    · simp only [get_recs, hres, if_pos hc] at h
      have hf : f = emptyFrame := (Option.some_inj.mp h).symm
      subst hf
      constructor
      · intro hcols
        exact absurd hcols (by simp [emptyFrame, theCols])
      · rintro ⟨idx2, hidx2, hlt⟩
        have he : idx = idx2 := Option.some_inj.mp hidx2
        subst he
        rcases hc with hc | hc
        · omega
        · omega
    · simp only [get_recs, hres, if_neg hc] at h
      have hlt : idx < sim.length := by
        push_neg at hc
        omega
      cases hil : ilocRows phones
          ((rankedPairs (sim.getD idx []) idx n).map Prod.fst) with
      | none =>
        rw [hil] at h
        cases h
      | some rows =>
        rw [hil] at h
        have hf : f = ⟨theCols, rows⟩ := (Option.some_inj.mp h).symm
        subst hf
        exact ⟨fun _ => ⟨idx, rfl, hlt⟩, fun _ => rfl⟩

/-- C1 (amended): get_recs performs no label-level deduplication. Whenever
the label resolves to an in-bounds position idx and the fetched matrix row
has m entries with idx < m, the result selects exactly min n (m - 1)
positions: only the query position is removed, and entities sharing a label
are never collapsed into one slot. -/
theorem recommend_no_label_dedup_len (phones : List Phone)
    (sim : List (List ℚ)) (label : String) (n idx m : Nat)
    (h1 : resolveLabel phones label = some idx) (h2 : idx < sim.length)
    (h3 : (sim.getD idx []).length = m) (h4 : idx < m) :
    (recIds phones sim label n).length = min n (m - 1) := by
  rw [recIds_resolved n h1 h2, List.length_map]
  unfold rankedPairs
  rw [List.length_take]
  have hperm := (sortDesc_perm (sim.getD idx []).enum).filter
    (fun t => t.1 != idx)
  rw [hperm.length_eq, length_filter_ne_enum _ _ (by omega), h3]

/-- C3 (amended): loading performs no dimension check and always completes
(the loaded catalog has one labelled row per input row); a catalog/matrix
size mismatch is not rejected at load time, but whenever every matrix row
is at most as long as the catalog, no query can raise: get_recs always
returns a frame. -/
theorem load_no_check_query_safe (phones : List Phone) (sim : List (List ℚ))
    (hrows : ∀ r ∈ sim, r.length ≤ phones.length) (label : String) (n : Nat) :
    (loadArtifacts phones sim).1.length = phones.length ∧
    get_recs phones sim label n ≠ none := by
  constructor
  · simp [loadArtifacts]
  · cases hres : resolveLabel phones label with
    | none => simp [get_recs, hres]
    | some idx =>
      by_cases hc : ((idx : Int) < 0 ∨ (sim.length : Int) ≤ (idx : Int))
      · simp only [get_recs, hres, if_pos hc]
        simp
      · simp only [get_recs, hres, if_neg hc]
        have hidx : idx < sim.length := by
          push_neg at hc
          omega
        have hmem : sim.getD idx [] ∈ sim := by
          rw [List.getD_eq_getElem _ _ hidx]
          exact List.getElem_mem hidx
        have hbound : ∀ i ∈ (rankedPairs (sim.getD idx []) idx n).map Prod.fst,
            i < phones.length := by
          intro i hi
          rcases List.mem_map.mp hi with ⟨q, hq, rfl⟩
          exact lt_of_lt_of_le (mem_enum_score (mem_of_rankedPairs hq).1).1
            (hrows _ hmem)
        obtain ⟨rows, hr⟩ := ilocRows_total hbound
        rw [hr]
        simp

/-- C7: label resolution returns the position of the first matching entity
in catalog iteration order when one exists (earlier positions do not match),
and not-found exactly when no entity bears the label. -/
theorem resolve_first_match (phones : List Phone) (label : String) (i : Nat) :
    (resolveLabel phones label = some i ↔
      i < phones.length ∧ displayName (phones.getD i default) = label ∧
        ∀ j, j < i → displayName (phones.getD j default) ≠ label) ∧
    (resolveLabel phones label = none ↔
      ∀ p ∈ phones, displayName p ≠ label) := by
  induction phones generalizing i with
  | nil =>
    constructor
    · simp [resolveLabel]
    · simp [resolveLabel]
  | cons p ps ih =>
    by_cases hp : displayName p = label
    · have hres : resolveLabel (p :: ps) label = some 0 := by
        simp [resolveLabel, hp]
      constructor
      · rw [hres]
        constructor
        · intro h
          have h0 : i = 0 := (Option.some_inj.mp h).symm
          subst h0
          exact ⟨Nat.succ_pos _, by simpa [List.getD_cons_zero] using hp,
            fun j hj => absurd hj (Nat.not_lt_zero j)⟩
        · rintro ⟨hlen, hname, hprev⟩
          cases i with
          | zero => rfl
          | succ k =>
            exact absurd hp (by simpa using hprev 0 (Nat.succ_pos k))
      · rw [hres]
        constructor
        · intro h
          cases h
        · intro hall
          exact absurd hp (hall p (List.mem_cons_self p ps))
    · have hres : resolveLabel (p :: ps) label
          = (resolveLabel ps label).map (fun k => k + 1) := by
        simp [resolveLabel, hp]
      constructor
      · rw [hres]
        constructor
        · intro h
          rcases Option.map_eq_some'.mp h with ⟨k, hk, hki⟩
          subst hki
          rcases ((ih k).1).mp hk with ⟨hlen, hname, hprev⟩
          refine ⟨Nat.succ_lt_succ hlen, ?_, ?_⟩
          · simpa [List.getD_cons_succ] using hname
          · intro j hj
            cases j with
            | zero => simpa [List.getD_cons_zero] using hp
            | succ j2 =>
              simpa [List.getD_cons_succ] using
                hprev j2 (Nat.lt_of_succ_lt_succ hj)
        · rintro ⟨hlen, hname, hprev⟩
          cases i with
          | zero =>
            exact absurd (by simpa [List.getD_cons_zero] using hname) hp
          | succ k =>
            have hk : resolveLabel ps label = some k := by
              apply ((ih k).1).mpr
              refine ⟨Nat.lt_of_succ_lt_succ hlen, ?_, ?_⟩
              · simpa [List.getD_cons_succ] using hname
              · intro j hj
                simpa [List.getD_cons_succ] using
                  hprev (j + 1) (Nat.succ_lt_succ hj)
            rw [hk]
            rfl
      · rw [hres]
        constructor
        · intro h
          have hnone : resolveLabel ps label = none := by
            cases hr : resolveLabel ps label with
            | none => rfl
            | some k =>
              rw [hr] at h
              cases h
          intro q hq
          rcases List.mem_cons.mp hq with rfl | hq2
          · exact hp
          · exact ((ih 0).2).mp hnone q hq2
        · intro hall
          have hnone : resolveLabel ps label = none :=
            ((ih 0).2).mpr (fun q hq => hall q (List.mem_cons_of_mem p hq))
          rw [hnone]
          rfl

/-- C8: the filter keeps exactly the rows satisfying the conjunction of all
supplied predicates (brand membership and the six inclusive ranges), and the
survivors form a sublist of the input, so their relative order is preserved
and never re-ranked. -/
theorem filter_conjunction_order (f : FilterPreds) (recs : List Phone) :
    (filterRecs f recs).Sublist recs ∧
    ∀ p, p ∈ filterRecs f recs ↔
      p ∈ recs ∧ p.brand ∈ f.brands ∧
        (f.price.1 ≤ p.price ∧ p.price ≤ f.price.2) ∧
        (f.ram.1 ≤ p.ram ∧ p.ram ≤ f.ram.2) ∧
        (f.storage.1 ≤ p.storage ∧ p.storage ≤ f.storage.2) ∧
        (f.screen.1 ≤ p.screen ∧ p.screen ≤ f.screen.2) ∧
        (f.battery.1 ≤ p.battery ∧ p.battery ≤ f.battery.2) ∧
        (f.cameraMp.1 ≤ p.cameraMp ∧ p.cameraMp ≤ f.cameraMp.2) := by
  refine ⟨List.filter_sublist _, fun p => ?_⟩
  rw [filterRecs, List.mem_filter]
  constructor
  · rintro ⟨hm, hp⟩
    refine ⟨hm, ?_⟩
    simp only [rowPasses, between, Bool.and_eq_true, decide_eq_true_eq] at hp
    obtain ⟨⟨⟨⟨⟨⟨hbrand, hprice⟩, hram⟩, hsto⟩, hscr⟩, hbat⟩, hcam⟩ := hp
    exact ⟨by simpa using hbrand, hprice, hram, hsto, hscr, hbat, hcam⟩
  · rintro ⟨hm, hbrand, hprice, hram, hsto, hscr, hbat, hcam⟩
    refine ⟨hm, ?_⟩
    simp only [rowPasses, between, Bool.and_eq_true, decide_eq_true_eq]
    exact ⟨⟨⟨⟨⟨⟨by simpa using hbrand, hprice⟩, hram⟩, hsto⟩, hscr⟩, hbat⟩, hcam⟩

/-- C9: a degenerate range (lo = hi = c) is handled without fault:
safe_slider returns (c, c) directly, the inclusive between predicate with
bounds (c, c) holds exactly for the value c, and a phone whose attribute
equals the shared bound always satisfies that attribute predicate of the
filter mask. -/
theorem degenerate_range_pass {α : Type} [LinearOrder α] (c v : α)
    (choice : α × α) (f : FilterPreds) (p : Phone) :
    safe_slider c c choice = (c, c) ∧
    (between c c v = true ↔ v = c) ∧
    (f.price = (p.price, p.price) →
      between f.price.1 f.price.2 p.price = true) := by
  refine ⟨by simp [safe_slider], ?_, ?_⟩
  · simp only [between, Bool.and_eq_true, decide_eq_true_eq]
    constructor
    · rintro ⟨h1, h2⟩
      exact le_antisymm h2 h1
    · rintro rfl
      exact ⟨le_refl _, le_refl _⟩
  · intro h
    rw [h]
    simp [between]

/-! ### Concrete sample data for counterexamples and witnesses -/

/-- A query phone with a unique label "Q - Z". -/
def pQ : Phone := ⟨"Q", "Z", 1, 1, 1, 1, 1, 1⟩

/-- First of two distinct phones sharing the label "S - G". -/
def pS1 : Phone := ⟨"S", "G", 2, 2, 2, 2, 2, 2⟩

/-- Second of two distinct phones sharing the label "S - G". -/
def pS2 : Phone := ⟨"S", "G", 3, 3, 3, 3, 3, 3⟩

/-- A three-entity catalog in which positions 1 and 2 share one label. -/
def samplePhones : List Phone := [pQ, pS1, pS2]

/-- A 3-by-3 similarity matrix matching samplePhones: from position 0,
position 1 scores 9 and position 2 scores 8. -/
def sampleSim : List (List ℚ) := [[10, 9, 8], [9, 10, 7], [8, 7, 10]]

/-- A two-entity catalog, mismatched against the 3-by-3 sampleSim. -/
def mismatchPhones : List Phone := [pQ, pS1]

/-! ### Counterexamples and witnesses -/

/-- C1 counterexample: on a catalog where two distinct entities (positions 1
and 2) share the label "S - G", get_recs returns both in one result set:
no label-level deduplication takes place. -/
theorem recommend_label_dedup_cex :
    get_recs samplePhones sampleSim "Q - Z" 2
      = some ⟨theCols, [pS1, pS2]⟩ ∧
    displayName pS1 = displayName pS2 ∧ pS1 ≠ pS2 :=
  ⟨by decide, by decide, by decide⟩

/-- C1 witness: on the sample data the amended length law gives a result of
exactly min 2 (3 - 1) = 2 selected positions, the label collision
notwithstanding. -/
theorem recommend_no_label_dedup_len_wit :
    (recIds samplePhones sampleSim "Q - Z" 2).length = min 2 (3 - 1) :=
  recommend_no_label_dedup_len samplePhones sampleSim "Q - Z" 2 0 3
    (by decide) (by decide) (by decide) (by decide)

/-- C2 witness: instantiating the distinguishability theorem at an
unresolved label, whose result is the no-column empty frame. -/
theorem recommend_outcomes_distinguishable_wit :
    emptyFrame.cols ≠ theCols ∧
    (emptyFrame.cols = theCols ↔
      ∃ idx, resolveLabel samplePhones "nope" = some idx ∧
        idx < sampleSim.length) :=
  recommend_outcomes_distinguishable samplePhones sampleSim "nope" 2
    emptyFrame (by decide)

/-- C3 counterexample: a two-row catalog loaded against a 3-by-3 matrix is
accepted at load time (loadArtifacts completes normally), and the mismatch
then surfaces as a query-time error: get_recs raises (returns none) because
position 2 is fed to .iloc. -/
theorem load_dim_mismatch_cex :
    mismatchPhones.length ≠ sampleSim.length ∧
    loadArtifacts mismatchPhones sampleSim
      = ⟨[(pQ, "Q - Z"), (pS1, "S - G")], sampleSim⟩ ∧
    get_recs mismatchPhones sampleSim "Q - Z" 3 = none :=
  ⟨by decide, by decide, by decide⟩

/-- C3 witness: on dimension-consistent sample data the amended theorem
applies: loading is size-preserving and the query never raises. -/
theorem load_no_check_query_safe_wit :
    (loadArtifacts samplePhones sampleSim).1.length = samplePhones.length ∧
    get_recs samplePhones sampleSim "Q - Z" 2 ≠ none :=
  load_no_check_query_safe samplePhones sampleSim (by decide) "Q - Z" 2

/-- C4 witness: the ordering theorem applied to the sample catalog at the
resolved position 0. -/
theorem recommend_order_strict_wit :
    (recIds samplePhones sampleSim "Q - Z" 2).Pairwise (fun i j =>
      (sampleSim.getD 0 []).getD j 0 < (sampleSim.getD 0 []).getD i 0 ∨
        ((sampleSim.getD 0 []).getD i 0 = (sampleSim.getD 0 []).getD j 0 ∧
          i < j)) :=
  recommend_order_strict samplePhones sampleSim "Q - Z" 2 0
    (by decide) (by decide)

/-- C5 witness: an unknown label gives the empty frame, and a label that
resolves to position 1 against a 1-by-1 matrix (out of bounds) also gives
the empty frame, both via the theorem. -/
theorem recommend_unknown_or_oob_empty_wit :
    get_recs samplePhones sampleSim "nope" 3 = some emptyFrame ∧
    get_recs samplePhones [[10]] "S - G" 3 = some emptyFrame :=
  ⟨(recommend_unknown_or_oob_empty samplePhones sampleSim "nope" 3).1
      (by decide),
   (recommend_unknown_or_oob_empty samplePhones [[10]] "S - G" 3).2 1
      (by decide) (by decide)⟩

/-- C6 witness: the resolved query position 0 is absent from the sample
result, and a single-entity catalog returns a frame with no rows. -/
theorem recommend_excludes_self_wit :
    0 ∉ recIds samplePhones sampleSim "Q - Z" 2 ∧
    (⟨theCols, []⟩ : Frame).rows = [] :=
  ⟨(recommend_excludes_self samplePhones sampleSim "Q - Z" 2 0 (by decide)).1,
   (recommend_excludes_self samplePhones sampleSim "Q - Z" 2 0 (by decide)).2
      pQ 10 "Q - Z" 5 ⟨theCols, []⟩ (by decide)⟩

/-- C7 witness: on the sample catalog the duplicated label "S - G" resolves
to position 1, its first occurrence, via the characterisation theorem. -/
theorem resolve_first_match_wit :
    resolveLabel samplePhones "S - G" = some 1 := by
  apply ((resolve_first_match samplePhones "S - G" 1).1).mpr
  refine ⟨by decide, by decide, ?_⟩
  intro j hj
  have hj0 : j = 0 := by omega
  subst hj0
  decide

/-- A filter whose numeric ranges are all degenerate at 42, with brand "S"
admitted. -/
def f42 : FilterPreds :=
  ⟨["S"], (42, 42), (42, 42), (42, 42), (42, 42), (42, 42), (42, 42)⟩

/-- A phone whose numeric attributes all equal 42. -/
def p42 : Phone := ⟨"S", "G", 42, 42, 42, 42, 42, 42⟩

/-- C9 witness: at the degenerate bound 42, safe_slider returns (42, 42),
the between predicate accepts exactly 42, and the price conjunct of the
mask accepts a phone priced at the shared bound. -/
theorem degenerate_range_pass_wit :
    safe_slider (42 : ℚ) 42 ((0 : ℚ), (0 : ℚ)) = (42, 42) ∧
    between (42 : ℚ) 42 42 = true ∧
    between f42.price.1 f42.price.2 p42.price = true :=
  ⟨(degenerate_range_pass (42 : ℚ) 42 ((0 : ℚ), (0 : ℚ)) f42 p42).1,
   ((degenerate_range_pass (42 : ℚ) 42 ((0 : ℚ), (0 : ℚ)) f42 p42).2.1).mpr rfl,
   (degenerate_range_pass (42 : ℚ) 42 ((0 : ℚ), (0 : ℚ)) f42 p42).2.2 rfl⟩

/-- C10 witness: the sample result selects the two distinct positions 1 and
2, and the returned rows are exactly the rows at those positions. -/
theorem recommend_positions_nodup_wit :
    (recIds samplePhones sampleSim "Q - Z" 2).Nodup ∧
    ilocRows samplePhones (recIds samplePhones sampleSim "Q - Z" 2)
      = some [pS1, pS2] :=
  ⟨(recommend_positions_nodup samplePhones sampleSim "Q - Z" 2).1,
   (recommend_positions_nodup samplePhones sampleSim "Q - Z" 2).2
      ⟨theCols, [pS1, pS2]⟩ (by decide)⟩
